import Mathlib

/-!
Verification development for the `UnionArray` module of awkward-array
(`src/awkward/array/union.py`), shallowly embedded over Lean lists.

Modelling conventions:
* All arrays are one-dimensional; `tags` and `index` are `List Nat`
  (the property setters enforce unsigned/non-negative storage, which the
  `tagsSetter` model below makes explicit over `List Int`).
* Branch contents are either flat arrays (`List α`) or table-like branches
  (`Table α`); the structural functions are parametrised by a length
  function `clen` so both kinds share one validity checker.
* numpy primitives are modelled exactly on their 1-D behaviour:
  boolean-mask indexing demands equal lengths (`boolIndex`, raising
  `indexError` on mismatch, as numpy does), reductions over empty arrays
  raise a `valueError`, fancy integer indexing checks bounds, masked
  assignment `out[mask] = arange(n)` is `maskWrite`.
* Fallible Python code returns `Except UErr`; `UErr.valueError` plays the
  role of the StructuralError/ValueError class of the spec, `indexError`
  that of numpy/Python IndexError, `typeError` that of TypeError.
* Buffer dtype widths (int64 index buffers, the uint8 output tag buffer of
  the dispatch engine) are modelled as unbounded naturals, except where a
  claim is specifically about width conversion (the tags setter, whose
  unsigned `astype` wrap is modelled by `% 2 ^ w`).
-/

set_option autoImplicit false

universe u v

/-- Error classes raised by the modelled operations. -/
inductive UErr : Type where
  | valueError (msg : String)
  | indexError
  | typeError (msg : String)
  deriving DecidableEq, Repr

instance {ε α : Type} [DecidableEq ε] [DecidableEq α] : DecidableEq (Except ε α) :=
  fun x y =>
    match x, y with
    | .error a, .error b =>
      if h : a = b then .isTrue (by rw [h]) else .isFalse (fun hh => h (Except.error.inj hh))
    | .error _, .ok _ => .isFalse (fun hh => Except.noConfusion hh)
    | .ok _, .error _ => .isFalse (fun hh => Except.noConfusion hh)
    | .ok a, .ok b =>
      if h : a = b then .isTrue (by rw [h]) else .isFalse (fun hh => h (Except.ok.inj hh))

/-- Python `list[i]` / numpy scalar indexing for a non-negative position:
out-of-range raises IndexError. -/
def listGet {α : Type u} (xs : List α) (i : Nat) : Except UErr α :=
  match (xs[i]?) with
  | some a => .ok a
  | none => .error .indexError

/-- Elements of `l` at the `true` positions of `m`, in order (the value of
numpy boolean-mask selection once the length precondition holds). -/
def maskSel {α : Type u} : List Bool → List α → List α
  | true :: ms, a :: as => a :: maskSel ms as
  | false :: ms, _ :: as => maskSel ms as
  | _, _ => []

/-- numpy boolean-mask indexing `l[m]`: the 1-D mask must have the same
length as the array, otherwise IndexError. -/
def boolIndex {α : Type u} (m : List Bool) (l : List α) : Except UErr (List α) :=
  if m.length = l.length then .ok (maskSel m l) else .error .indexError

/-- The boolean mask `l == k` (numpy elementwise comparison). -/
def maskOf {κ : Type u} [DecidableEq κ] (k : κ) (l : List κ) : List Bool :=
  l.map (fun s => decide (s = k))

/-- numpy `count_nonzero` over a boolean array. -/
def countTrue : List Bool → Nat
  | [] => 0
  | b :: r => (if b then 1 else 0) + countTrue r

/-- Number of occurrences of `k` in `l`. -/
def cntK {κ : Type u} [DecidableEq κ] (k : κ) : List κ → Nat
  | [] => 0
  | a :: l => (if a = k then 1 else 0) + cntK k l

/-- Maximum of a list of naturals, 0 for the empty list. -/
def natMax : List Nat → Nat
  | [] => 0
  | a :: r => Nat.max a (natMax r)

/-- numpy `.max()` over a 1-D integer array: a reduction over an empty
array raises a ValueError. -/
def npMaxNat : List Nat → Except UErr Nat
  | [] => .error (.valueError "zero-size array to reduction operation maximum which has no identity")
  | a :: r => .ok (natMax (a :: r))

/-- numpy `.max()` over a possibly signed 1-D array. -/
def npMaxInt : List Int → Except UErr Int
  | [] => .error (.valueError "zero-size array to reduction operation maximum which has no identity")
  | a :: r => .ok (r.foldr max a)

/-- numpy `unique` over a 1-D array of naturals: the distinct values in
ascending order. -/
def npUnique (l : List Nat) : List Nat :=
  (List.range (natMax l + 1)).filter (fun t => decide (t ∈ l))

/-- numpy fancy indexing `xs[idx]` with a 1-D integer index array: every
entry must be in range, otherwise IndexError. -/
def fancyIndex {α : Type u} (xs : List α) : List Nat → Except UErr (List α)
  | [] => .ok []
  | i :: rest =>
    match (xs[i]?) with
    | none => .error .indexError
    | some a =>
      match fancyIndex xs rest with
      | .error e => .error e
      | .ok ys => .ok (a :: ys)

/-- numpy masked assignment `out[ks == key] = f <$> arange(count)`: walk the
key array `ks` and the output buffer together, writing `f c` at the
positions whose key matches, where `c` counts the matches seen so far. -/
def maskWrite {κ : Type u} {β : Type v} [DecidableEq κ] (key : κ) (f : Nat → β) :
    List κ → List β → Nat → List β
  | [], out, _ => out
  | _ :: _, [], _ => []
  | k :: ks, v :: vs, c =>
    if k = key then f c :: maskWrite key f ks vs (c + 1)
    else v :: maskWrite key f ks vs c

/-- The tags/index/contents triple of `UnionArray`; `γ` is the branch type
(`List α` for flat branches, `Table α` for table-like branches). -/
structure UnionArray (γ : Type u) : Type u where
  tags : List Nat
  index : List Nat
  contents : List γ
  deriving DecidableEq, Repr

/-- The per-tag loop of `UnionArray._valid` (union.py lines 252-255): for
every distinct tag, `index[tags == tag].max()` must be below the length of
that branch.  `index` here is already the truncated `self._index[:len(self._tags)]`. -/
def validLoop {γ : Type u} (clen : γ → Nat) (tags index : List Nat) (contents : List γ) :
    List Nat → Except UErr Unit
  | [] => .ok ()
  | t :: rest =>
    match boolIndex (maskOf t tags) index with
    | .error e => .error e
    | .ok sel =>
      match npMaxNat sel with
      | .error e => .error e
      | .ok mxi =>
        match listGet contents t with
        | .error e => .error e
        | .ok c =>
          if clen c ≤ mxi then
            .error (.valueError "maximum index must be less than the length of all contents arrays")
          else validLoop clen tags index contents rest

/-- `UnionArray._valid` (union.py lines 239-257), specialised to 1-D tags
and index.  The source's first two checks compare `len(tags.shape)` with
`len(index.shape)` and `tags.shape[1:]` with `index.shape[1:]`: for 1-D
buffers both numbers of dimensions are 1 and both trailing shapes are
empty, so neither check can ever fire and they are omitted here.  The
remaining checks are: the maximum tag must be below `len(contents)` when
tags are non-empty, and the per-tag maximum of `index[:len(tags)]` must be
below the matching branch length (where numpy boolean masking raises
IndexError when `len(index) < len(tags)`). -/
def validCore {γ : Type u} (clen : γ → Nat) (tags index : List Nat) (contents : List γ) :
    Except UErr Unit :=
  if tags ≠ [] ∧ contents.length ≤ natMax tags then
    .error (.valueError "maximum tag is at least the number of contents arrays")
  else validLoop clen tags (index.take tags.length) contents (npUnique tags)

/-- `_valid` on a union of flat branches. -/
def uvalid {α : Type u} (u : UnionArray (List α)) : Except UErr Unit :=
  validCore List.length u.tags u.index u.contents

/-- The numpy scalar dtypes that can appear as branch element types, plus
the opaque `object_` fallback standing for any non-numeric branch type. -/
inductive DType : Type where
  | bool | int8 | uint8 | int16 | uint16 | int32 | uint32 | int64 | uint64
  | float16 | float32 | float64 | float128
  | complex64 | complex128 | complex256
  | object_
  deriving DecidableEq, Repr

/-- `issubclass(x.dtype.type, tuple)` for every array in the list: each
branch dtype must belong to the allowed tuple of scalar classes. -/
def allIn (ds : List DType) (allowed : List DType) : Bool :=
  ds.all (fun d => decide (d ∈ allowed))

/-- Concrete dtypes covered by the abstract class `numpy.integer`. -/
def integerDTypes : List DType :=
  [.int8, .uint8, .int16, .uint16, .int32, .uint32, .int64, .uint64]

/-- Concrete dtypes covered by the abstract class `numpy.floating`. -/
def floatingDTypes : List DType :=
  [.float16, .float32, .float64, .float128]

/-- Concrete dtypes covered by the abstract class `numpy.complexfloating`. -/
def complexDTypes : List DType :=
  [.complex64, .complex128, .complex256]

/-- `UnionArray.uniondtype` (union.py lines 156-213): the promotion chain
over the branch element dtypes, transcribed clause by clause.  The
platform-dependent `hasattr(numpy, "float128")` / `"complex256"` guards
hold on the library's reference platform and are taken as true. -/
def uniondtype (ds : List DType) : DType :=
  if allIn ds [.bool] then .bool
  else if allIn ds [.int8] then .int8
  else if allIn ds [.uint8] then .uint8
  else if allIn ds [.int8, .uint8, .int16] then .int16
  else if allIn ds [.uint8, .uint16] then .uint16
  else if allIn ds [.int8, .uint8, .int16, .uint16, .int32] then .int32
  else if allIn ds [.uint8, .uint16, .uint32] then .uint32
  else if allIn ds [.int8, .uint8, .int16, .uint16, .int32, .uint32, .int64] then .int64
  else if allIn ds [.uint8, .uint16, .uint32, .uint64] then .uint64
  else if allIn ds [.float16] then .float16
  else if allIn ds [.float16, .float32] then .float32
  else if allIn ds [.float16, .float32, .float64] then .float64
  else if allIn ds [.float16, .float32, .float64, .float128] then .float128
  else if allIn ds (integerDTypes ++ floatingDTypes) then .float64
  else if allIn ds [.complex64] then .complex64
  else if allIn ds [.complex64, .complex128] then .complex128
  else if allIn ds [.complex64, .complex128, .complex256] then .complex256
  else if allIn ds (integerDTypes ++ floatingDTypes ++ complexDTypes) then .complex128
  else .object_

/-- C-style cast of a signed value into an unsigned `w`-bit dtype, the
behaviour of `ndarray.astype` on the relevant platforms: reduction
modulo `2 ^ w`. -/
def astypeUnsigned (w : Nat) (v : List Int) : List Int :=
  v.map (fun x => x % ((2 : Int) ^ w))

/-- The `tags` property setter (union.py lines 95-120) with property
checking enabled, over an arbitrary signed integer input array.
`TAGTYPE` is `numpy.uint8`, so the first two branches of the width chain
both test against 255, exactly as in the source.  Note that the
`check_prop_valid` checks run on the value already `astype`-converted to
an unsigned dtype. -/
def tagsSetter (value : List Int) : Except UErr (List Nat) :=
  match npMaxInt value with
  | .error e => .error e
  | .ok tagsmax =>
    match (if tagsmax ≤ 255 then some 8
           else if tagsmax ≤ 255 then some 8
           else if tagsmax ≤ 65535 then some 16
           else if tagsmax ≤ 4294967295 then some 32
           else if tagsmax ≤ 18446744073709551615 then some 64
           else none : Option Nat) with
    | none => .error (.valueError "maximum tag must be at most 18446744073709551615")
    | some w =>
      let v := astypeUnsigned w value
      if v.length = 0 then .error (.valueError "tags must be non-empty")
      -- the dtype after the astype chain is always an unsigned integer dtype,
      -- so the integer-dtype TypeError check passes
      else if v.any (fun x => decide (x < 0)) then
        .error (.valueError "tags must be a non-negative array")
      else .ok (v.map Int.toNat)

/-- The index buffer built by the loop of `UnionArray.fromtags` (union.py
lines 28-31): `index = numpy.full(tags.shape, -1, INDEXTYPE)`, then
`index[tags == tag] = arange(count_nonzero(tags == tag))` for
`tag, content in enumerate(contents)`. -/
def fromtagsIndex (tags : List Nat) (numContents : Nat) : List Int :=
  (List.range numContents).foldl
    (fun idx tag => maskWrite tag (fun j => (j : Int)) tags idx 0)
    (List.replicate tags.length (-1 : Int))

/-- `UnionArray.fromtags` (union.py lines 19-34): the sequential factory.
Assigning `out.tags = tags` runs the tags setter, whose `value.max()`
raises on an empty input (modelled by `npMaxNat`); then the maximum tag is
checked against `len(contents)`; then the index buffer is filled per tag
by `fromtagsIndex`; finally `out.index = index` runs the index setter,
whose property check rejects negative leftovers (none remain, since every
tag value is below `len(contents)`). -/
def fromtags {α : Type u} (tags : List Nat) (contents : List (List α)) :
    Except UErr (UnionArray (List α)) :=
  match npMaxNat tags with
  | .error e => .error e
  | .ok mx =>
    if contents.length ≤ mx then
      .error (.valueError "maximum tag is at least the number of contents arrays")
    else
      let index : List Int := fromtagsIndex tags contents.length
      if index.any (fun x => decide (x < 0)) then
        .error (.valueError "index must be a non-negative array")
      else .ok ⟨tags, index.map Int.toNat, contents⟩

/-- One element of a union of flat branches: the loop body of
`UnionArray.__iter__` (union.py line 271), `contents[tags[i]][index[i]]`
with the full, untruncated index buffer. -/
def elemAt {α : Type u} (u : UnionArray (List α)) (i : Nat) : Except UErr α :=
  match (u.tags[i]?) with
  | none => .error .indexError
  | some t =>
    match (u.index[i]?) with
    | none => .error .indexError
    | some ix =>
      match (u.contents[t]?) with
      | none => .error .indexError
      | some br =>
        match (br[ix]?) with
        | none => .error .indexError
        | some a => .ok a

/-- `UnionArray.__iter__` (union.py lines 259-272): validate, then yield
`contents[tags[i]][index[i]]` for `i = 0 .. len(tags) - 1`. -/
def iterElems {α : Type u} (u : UnionArray (List α)) : Except UErr (List α) :=
  match uvalid u with
  | .error e => .error e
  | .ok _ => (List.range u.tags.length).mapM (elemAt u)

/-- The loop of `UnionArray.issequential` (union.py lines 70-74): for each
distinct tag, `self._index[tags == tag]` (the full index buffer, so numpy
raises IndexError when `len(index) ≠ len(tags)`) must equal
`arange(count_nonzero(tags == tag))`; the loop returns `False` early on
the first mismatch. -/
def seqCheck (tags index : List Nat) : List Nat → Except UErr Bool
  | [] => .ok true
  | t :: rest =>
    match boolIndex (maskOf t tags) index with
    | .error e => .error e
    | .ok sel =>
      if sel = List.range (countTrue (maskOf t tags)) then seqCheck tags index rest
      else .ok false

/-- `UnionArray.issequential` (union.py lines 67-74). -/
def issequential {α : Type u} (u : UnionArray (List α)) : Except UErr Bool :=
  match uvalid u with
  | .error e => .error e
  | .ok _ => seqCheck u.tags u.index (npUnique u.tags)

/-- The two shapes of persisted description produced by
`UnionArray.__awkward_persist__`: the compact form records only tags and
the ordered branch contents, the general form also records the index. -/
inductive PersistForm (α : Type u) : Type u where
  | compact (tags : List Nat) (contents : List (List α))
  | general (tags : List Nat) (index : List Nat) (contents : List (List α))
  deriving DecidableEq

/-- `UnionArray.__awkward_persist__` (union.py lines 76-89): validate,
then emit the compact form (replay through `fromtags`) when the
sequentiality test holds, and the general form (replay through the direct
constructor) otherwise. -/
def persist {α : Type u} (u : UnionArray (List α)) : Except UErr (PersistForm α) :=
  match uvalid u with
  | .error e => .error e
  | .ok _ =>
    match issequential u with
    | .error e => .error e
    | .ok true => .ok (.compact u.tags u.contents)
    | .ok false => .ok (.general u.tags u.index u.contents)

/-- Modelled from the spec: replaying a persisted description re-invokes
the recorded constructor on the recorded arguments — `fromtags` for the
compact form, the direct constructor for the general form.  The replay
machinery itself (`awkward.persist`) is outside the sources provided. -/
def decodePersist {α : Type u} (p : PersistForm α) : Except UErr (UnionArray (List α)) :=
  match p with
  | .compact tags contents => fromtags tags contents
  | .general tags index contents => .ok ⟨tags, index, contents⟩

/-- Modelled from the spec: a table-like branch array (`awkward.array.table.Table`
is not among the sources provided).  It exposes its Python length (the
number of logical rows) and named columns; field projection returns the
named column and field assignment replaces or appends it. -/
structure Table (α : Type u) : Type u where
  nrows : Nat
  cols : List (String × List α)
  deriving DecidableEq, Repr

/-- Modelled from the spec: projecting a table-like branch by a field name
yields the named column; a missing field is an error. -/
def tableProj {α : Type u} (t : Table α) (f : String) : Except UErr (List α) :=
  match t.cols.lookup f with
  | some col => .ok col
  | none => .error (.valueError "no column with the requested field name")

/-- Modelled from the spec: assigning a column to a table-like branch
replaces the column of that name, or appends a new one. -/
def tableSetCol {α : Type u} (t : Table α) (f : String) (col : List α) : Table α :=
  if t.cols.any (fun c => decide (c.1 = f)) then
    ⟨t.nrows, t.cols.map (fun c => if c.1 = f then (f, col) else c)⟩
  else ⟨t.nrows, t.cols ++ [(f, col)]⟩

/-- `_valid` on a union of table-like branches (`len(contents[tag])` is the
number of rows of the branch). -/
def uvalidT {α : Type u} (u : UnionArray (Table α)) : Except UErr Unit :=
  validCore Table.nrows u.tags u.index u.contents

/-- The loop of the field-name branch of `UnionArray.__getitem__`
(union.py lines 278-280): project every distinct tag's branch by the field
name, collecting the projected columns in ascending tag order. -/
def fieldReadLoop {α : Type u} (contents : List (Table α)) (f : String) :
    List Nat → Except UErr (List (List α))
  | [] => .ok []
  | t :: rest =>
    match listGet contents t with
    | .error e => .error e
    | .ok tbl =>
      match tableProj tbl f with
      | .error e => .error e
      | .ok col =>
        match fieldReadLoop contents f rest with
        | .error e => .error e
        | .ok cs => .ok (col :: cs)

/-- The field-name branch of `UnionArray.__getitem__` (union.py lines
277-285): validate, project each distinct tag's branch, and return
`self.copy(contents=projected)` — tags and index are left unchanged.  When
no tags are present, fall back to projecting branch 0. -/
def fieldRead {α : Type u} (u : UnionArray (Table α)) (f : String) :
    Except UErr (UnionArray (List α)) :=
  match uvalidT u with
  | .error e => .error e
  | .ok _ =>
    match fieldReadLoop u.contents f (npUnique u.tags) with
    | .error e => .error e
    | .ok cs =>
      match cs with
      | [] =>
        match listGet u.contents 0 with
        | .error e => .error e
        | .ok c0 =>
          match tableProj c0 f with
          | .error e => .error e
          | .ok p => .ok ⟨u.tags, u.index, [p]⟩
      | _ :: _ => .ok ⟨u.tags, u.index, cs⟩

/-- Modelled from the spec: `IndexedArray.invert` (the branch arrays'
"invert a permutation" utility, `awkward.array.indexed` is not among the
sources provided): for a permutation `perm` of `0 .. len(perm) - 1`, the
array `out` with `out[perm[j]] = j`. -/
def invertPerm (perm : List Nat) : List Nat :=
  (List.range (natMax perm + 1)).map (fun b => perm.indexOf b)

/-- The per-tag loop of the single-field branch of `UnionArray.__setitem__`
(union.py lines 311-313): for each distinct tag,
`inverseindex = IndexedArray.invert(index[:len(tags)][tags == tag])` and
`contents[tag][f] = IndexedArray(inverseindex, what)`.  The stored column
is the materialisation of that `IndexedArray`: element `b` is
`what[inverseindex[b]]` (note: the source passes the whole right-hand side
`what`, not its restriction to the tag's logical positions). -/
def setFieldLoop {α : Type u} (tags index : List Nat) (f : String) (what : List α) :
    List (Table α) → List Nat → Except UErr (List (Table α))
  | contents, [] => .ok contents
  | contents, t :: rest =>
    match boolIndex (maskOf t tags) (index.take tags.length) with
    | .error e => .error e
    | .ok m =>
      match fancyIndex what (invertPerm m) with
      | .error e => .error e
      | .ok col =>
        match listGet contents t with
        | .error e => .error e
        | .ok tbl =>
          setFieldLoop tags index f what (contents.set t (tableSetCol tbl f col)) rest

/-- The single-field-name form of `UnionArray.__setitem__` (union.py lines
306-313): first the shape guard `what.shape[:len(tags.shape)] != tags.shape`
(for a 1-D value and 1-D tags: the lengths must agree), then the per-tag
inverse-permutation writes. -/
def setField {α : Type u} (u : UnionArray (Table α)) (f : String) (what : List α) :
    Except UErr (UnionArray (Table α)) :=
  if what.length ≠ u.tags.length then
    .error (.valueError "array to assign does not have the same starting shape as tags")
  else
    match setFieldLoop u.tags u.index f what u.contents (npUnique u.tags) with
    | .error e => .error e
    | .ok cs => .ok ⟨u.tags, u.index, cs⟩

/-- A 1-D positional selector for `__getitem__`: a scalar position, a
slice `a:b` (with non-negative bounds), or a boolean mask. -/
inductive Sel : Type where
  | scalar (i : Nat)
  | slice (a b : Nat)
  | mask (m : List Bool)
  deriving DecidableEq, Repr

/-- Outcome of applying a 1-D selector to a 1-D buffer: a scalar element
or a sub-array. -/
inductive SelRes (α : Type u) : Type u where
  | scalar (a : α)
  | arr (l : List α)
  deriving DecidableEq, Repr

/-- numpy semantics of applying a 1-D selector to a 1-D buffer: scalar
indexing checks bounds, slices clamp, boolean masks must match in length. -/
def applySel {α : Type u} (s : Sel) (xs : List α) : Except UErr (SelRes α) :=
  match s with
  | .scalar i =>
    match (xs[i]?) with
    | some a => .ok (.scalar a)
    | none => .error .indexError
  | .slice a b => .ok (.arr ((xs.drop a).take (b - a)))
  | .mask m =>
    match boolIndex m xs with
    | .error e => .error e
    | .ok l => .ok (.arr l)

/-- Result of a positional read on a union of flat branches: a scalar (the
scalar-extraction terminal case), a flat branch selection (the narrowed,
union-free cases), or a new UnionArray wrapping the selected tags/index
over the original, unpruned contents. -/
inductive GetResult (α : Type u) : Type u where
  | scalar (a : α)
  | branch (l : List α)
  | union (u : UnionArray (List α))
  deriving DecidableEq, Repr

/-- The positional branch of `UnionArray.__getitem__` (union.py lines
274-304) over the components of the array, with an empty tail (branches
are flat 1-D buffers here, so any non-empty tail would be consumed by the
branch itself).  Validate; apply the head selector to `tags` and to
`index[:len(tags)]`; then: two scalars → direct scalar extraction from the
selected branch; empty selection → delegate to branch 0; tag-homogeneous
selection → index that branch directly; otherwise → `copy(tags=..., index=...)`,
a new union over the original contents. -/
def getCore {α : Type u} (tags index : List Nat) (contents : List (List α)) (s : Sel) :
    Except UErr (GetResult α) :=
  match validCore List.length tags index contents with
  | .error e => .error e
  | .ok _ =>
    match applySel s tags with
    | .error e => .error e
    | .ok tr =>
      match applySel s (index.take tags.length) with
      | .error e => .error e
      | .ok ir =>
        match tr, ir with
        | .scalar t, .scalar ix =>
          match listGet contents t with
          | .error e => .error e
          | .ok br =>
            match (br[ix]?) with
            | some a => .ok (.scalar a)
            | none => .error .indexError
        | .arr tagsSel, .arr indexSel =>
          match tagsSel with
          | [] =>
            match listGet contents 0 with
            | .error e => .error e
            | .ok c0 =>
              match fancyIndex c0 indexSel with
              | .error e => .error e
              | .ok l => .ok (.branch l)
          | t0 :: _ =>
            if tagsSel.all (fun t => decide (t = t0)) then
              match listGet contents t0 with
              | .error e => .error e
              | .ok c =>
                match fancyIndex c indexSel with
                | .error e => .error e
                | .ok l => .ok (.branch l)
            else .ok (.union ⟨tagsSel, indexSel, contents⟩)
        -- a single selector applied to two 1-D buffers always produces
        -- results of the same shape; the mixed cases are unreachable
        | _, _ => .error .indexError

/-- Positional read on a union of flat branches. -/
def getPos {α : Type u} (u : UnionArray (List α)) (s : Sel) : Except UErr (GetResult α) :=
  getCore u.tags u.index u.contents s

/-- A valid union of three table branches whose tags are `[0, 2]`: tag
value 1 is absent. -/
def exFieldTables : UnionArray (Table Nat) :=
  ⟨[0, 2], [0, 0],
   [⟨1, [("x", [10])]⟩, ⟨1, [("x", [20])]⟩, ⟨1, [("x", [30])]⟩]⟩

/-- What the field-name read returns on `exFieldTables`: tags unchanged,
but only two projected contents. -/
def exFieldResult : UnionArray (List Nat) :=
  ⟨[0, 2], [0, 0], [[10], [30]]⟩

/-- A union whose 1-D tags are longer than its 1-D index. -/
def exShortIndex : UnionArray (List Nat) := ⟨[0, 0], [0], [[5, 6]]⟩

/-- The write scenario of the spec: `tags=[0,1,0,1]` with sequential index
and two table-like branches of two rows each. -/
def exWriteTables : UnionArray (Table Nat) :=
  ⟨[0, 1, 0, 1], [0, 0, 1, 1],
   [⟨2, [("x", [100, 200])]⟩, ⟨2, [("x", [300, 400])]⟩]⟩

/-- The scenario array of the spec: tags `[0,1,0,1]` over an integer
branch `[10, 20]` and a fractional branch `[1.5, 2.5]`. -/
def exScenario : UnionArray (List ℚ) :=
  ⟨[0, 1, 0, 1], [0, 0, 1, 1], [[10, 20], [(1.5 : ℚ), (2.5 : ℚ)]]⟩

/-- A small valid, sequential union used to instantiate the round-trip
theorem. -/
def exSeq : UnionArray (List Nat) := ⟨[0, 1], [0, 0], [[10], [20]]⟩

/-- Witness array for the homogeneous-narrowing theorem. -/
def exNarrow : UnionArray (List Nat) := ⟨[0, 0, 1], [0, 1, 0], [[10, 20], [30]]⟩

/-- Witness array for the index-truncation theorem, junk-free. -/
def exTrunc1 : List Nat := [0]

/-- Witness index for the index-truncation theorem: agrees with
`exTrunc1` on the first position, carries an out-of-range value beyond. -/
def exTrunc2 : List Nat := [0, 999]

/-! ### Small facts about the promotion chain -/

theorem allIn_mem {ds L : List DType} {d : DType} (hall : allIn ds L = true) (hd : d ∈ ds) :
    d ∈ L := by
  have := List.all_eq_true.mp hall _ hd
  simpa using this

theorem allIn_false_of_mem {ds L : List DType} (h : DType.object_ ∈ ds)
    (hL : DType.object_ ∉ L) : allIn ds L = false := by
  cases hall : allIn ds L
  · rfl
  · exact absurd (allIn_mem hall h) hL

/-- C5: for 1-D tags and index with `len(tags) > len(index)`, validation
does not raise the documented structural ValueError: the dimension-count
guard passes (both are 1-D), and the per-tag masked read then raises a
numpy IndexError.  The same undocumented error propagates out of a read. -/
theorem valid_short_index_raises_IndexError :
    uvalid exShortIndex = Except.error UErr.indexError ∧
    getPos exShortIndex (Sel.scalar 0) = Except.error UErr.indexError :=
  ⟨rfl, rfl⟩

/-- C6: the tags setter silently wraps a negative input into the unsigned
tag dtype instead of raising the documented non-negativity error: the
`astype` conversion to an unsigned dtype runs before the `(value < 0)`
check, which therefore can never fire. -/
theorem tagsSetter_negative_wraps :
    tagsSetter [-1, 0] = Except.ok [255, 0] := by decide

/-- C8: the field-name write materialises `IndexedArray(inverseindex, what)`
with the whole right-hand side, not its restriction to the tag's logical
positions; on the spec's scenario both branches receive the values at
logical positions 0 and 1 (`[10, 11]`), not `[10, 12]` and `[11, 13]` as
the claim states.  A value of the wrong leading shape is rejected before
any branch is modified. -/
theorem setField_writes_unmasked_rhs :
    uvalidT exWriteTables = Except.ok () ∧
    setField exWriteTables "x" [10, 11, 12, 13] =
      Except.ok ⟨[0, 1, 0, 1], [0, 0, 1, 1],
        [⟨2, [("x", [10, 11])]⟩, ⟨2, [("x", [10, 11])]⟩]⟩ ∧
    setField exWriteTables "x" [10, 11, 12] =
      Except.error (UErr.valueError "array to assign does not have the same starting shape as tags") :=
  ⟨rfl, rfl, rfl⟩

/-- C9: the scenario of the spec: `fromtags` on tags `[0,1,0,1]` and
contents `[[10,20],[1.5,2.5]]` derives index `[0,0,1,1]`; the length is 4;
iteration yields `[10, 1.5, 20, 2.5]`; and the sequentiality test holds. -/
theorem fromtags_scenario :
    fromtags [0, 1, 0, 1] [[10, 20], [(1.5 : ℚ), (2.5 : ℚ)]] = Except.ok exScenario ∧
    exScenario.index = [0, 0, 1, 1] ∧
    exScenario.tags.length = 4 ∧
    iterElems exScenario = Except.ok [10, (1.5 : ℚ), 20, (2.5 : ℚ)] ∧
    issequential exScenario = Except.ok true :=
  ⟨rfl, rfl, rfl, rfl, rfl⟩

/-- C1 (counterexample): on a valid UnionArray whose tags are `[0, 2]`,
the field-name read returns — without raising — an array whose contents
list has only two entries while `max(tags) = 2`, violating invariant I2. -/
theorem fieldRead_breaks_I2_counterexample :
    uvalidT exFieldTables = Except.ok () ∧
    fieldRead exFieldTables "x" = Except.ok exFieldResult ∧
    uvalid exFieldResult =
      Except.error (UErr.valueError "maximum tag is at least the number of contents arrays") :=
  ⟨rfl, rfl, rfl⟩

/-- C7: the type-promotion chain is a pure function of the branch element
types realising the spec's lattice examples, and any branch set containing
the opaque non-numeric type promotes to the opaque object type. -/
theorem uniondtype_lattice :
    uniondtype [.int8, .int8] = .int8 ∧
    uniondtype [.int8, .uint8] = .int16 ∧
    uniondtype [.float32, .float64] = .float64 ∧
    uniondtype [.int32, .float32] = .float64 ∧
    uniondtype [.complex64, .float64] = .complex128 ∧
    ∀ ds : List DType, DType.object_ ∈ ds → uniondtype ds = .object_ := by
  refine ⟨rfl, rfl, rfl, rfl, rfl, ?_⟩
  intro ds h
  have k := fun (L : List DType) (hL : DType.object_ ∉ L) =>
    @allIn_false_of_mem ds L h hL
  simp only [uniondtype]
  rw [k [.bool] (by decide), k [.int8] (by decide), k [.uint8] (by decide),
    k [.int8, .uint8, .int16] (by decide), k [.uint8, .uint16] (by decide),
    k [.int8, .uint8, .int16, .uint16, .int32] (by decide),
    k [.uint8, .uint16, .uint32] (by decide),
    k [.int8, .uint8, .int16, .uint16, .int32, .uint32, .int64] (by decide),
    k [.uint8, .uint16, .uint32, .uint64] (by decide),
    k [.float16] (by decide), k [.float16, .float32] (by decide),
    k [.float16, .float32, .float64] (by decide),
    k [.float16, .float32, .float64, .float128] (by decide),
    k (integerDTypes ++ floatingDTypes) (by decide),
    k [.complex64] (by decide), k [.complex64, .complex128] (by decide),
    k [.complex64, .complex128, .complex256] (by decide),
    k (integerDTypes ++ floatingDTypes ++ complexDTypes) (by decide)]
  rfl

/-- Witness for the promotion theorem at concrete inputs. -/
theorem uniondtype_lattice_witness :
    uniondtype [DType.int8, DType.object_] = DType.object_ :=
  uniondtype_lattice.2.2.2.2.2 [DType.int8, DType.object_] (by decide)

/-! ### Facts about the modelled numpy primitives -/

theorem maskSel_length {α : Type u} : ∀ (m : List Bool) (l : List α),
    m.length = l.length → (maskSel m l).length = countTrue m
  | [], [], _ => rfl
  | true :: ms, _ :: as, h => by
    have IH := maskSel_length ms as (Nat.succ.inj h)
    simp [maskSel, countTrue, IH]
    omega
  | false :: ms, _ :: as, h => by
    have IH := maskSel_length ms as (Nat.succ.inj h)
    simp [maskSel, countTrue, IH]

theorem maskSel_get_count {α : Type u} : ∀ (m : List Bool) (l : List α) (i : Nat),
    m.length = l.length → m[i]? = some true →
    (maskSel m l)[countTrue (m.take i)]? = l[i]?
  | [], [], i, _, hi => by simp at hi
  | true :: _, _ :: _, 0, _, _ => by simp [maskSel, countTrue]
  | false :: _, _ :: _, 0, _, hi => by simp at hi
  | true :: ms, a :: as, i + 1, h, hi => by
    have IH := maskSel_get_count ms as i (Nat.succ.inj h) (by simpa using hi)
    have hcnt : countTrue ((true :: ms).take (i + 1)) = countTrue (ms.take i) + 1 := by
      simp [List.take_succ_cons, countTrue, Nat.add_comm]
    rw [hcnt]
    simpa [maskSel] using IH
  | false :: ms, a :: as, i + 1, h, hi => by
    have IH := maskSel_get_count ms as i (Nat.succ.inj h) (by simpa using hi)
    have hcnt : countTrue ((false :: ms).take (i + 1)) = countTrue (ms.take i) := by
      simp [List.take_succ_cons, countTrue]
    rw [hcnt]
    simpa [maskSel] using IH

theorem maskSel_pair {α : Type u} {β : Type v} :
    ∀ (m : List Bool) (xs : List α) (ys : List β) (j : Nat) (a : α) (b : β),
    m.length = xs.length → m.length = ys.length →
    (maskSel m xs)[j]? = some a → (maskSel m ys)[j]? = some b →
    ∃ i : Nat, m[i]? = some true ∧ xs[i]? = some a ∧ ys[i]? = some b
  | [], [], [], j, a, b, _, _, ha, _ => by simp [maskSel] at ha
  | true :: ms, x :: xs, y :: ys, 0, a, b, _, _, ha, hb => by
    have hax : x = a := by simpa [maskSel] using ha
    have hby : y = b := by simpa [maskSel] using hb
    exact ⟨0, by simp, by simp [hax], by simp [hby]⟩
  | true :: ms, x :: xs, y :: ys, j + 1, a, b, h1, h2, ha, hb => by
    obtain ⟨i, hm, hx, hy⟩ :=
      maskSel_pair ms xs ys j a b (Nat.succ.inj h1) (Nat.succ.inj h2)
        (by simpa [maskSel] using ha) (by simpa [maskSel] using hb)
    exact ⟨i + 1, by simpa using hm, by simpa using hx, by simpa using hy⟩
  | false :: ms, x :: xs, y :: ys, j, a, b, h1, h2, ha, hb => by
    obtain ⟨i, hm, hx, hy⟩ :=
      maskSel_pair ms xs ys j a b (Nat.succ.inj h1) (Nat.succ.inj h2)
        (by simpa [maskSel] using ha) (by simpa [maskSel] using hb)
    exact ⟨i + 1, by simpa using hm, by simpa using hx, by simpa using hy⟩

theorem maskSel_mem {α : Type u} {m : List Bool} {l : List α} {a : α}
    (hlen : m.length = l.length) (ha : a ∈ maskSel m l) :
    ∃ i : Nat, m[i]? = some true ∧ l[i]? = some a := by
  obtain ⟨j, hj⟩ := List.mem_iff_getElem?.mp ha
  obtain ⟨i, hm, hx, _⟩ := maskSel_pair m l l j a a hlen hlen hj hj
  exact ⟨i, hm, hx⟩

theorem maskSel_ne_nil {α : Type u} {m : List Bool} {l : List α} {i : Nat}
    (hlen : m.length = l.length) (hi : m[i]? = some true) : maskSel m l ≠ [] := by
  intro hnil
  have hsel := maskSel_get_count m l i hlen hi
  rw [hnil] at hsel
  simp only [List.getElem?_nil] at hsel
  have hlt : i < m.length := (List.getElem?_eq_some_iff.mp hi).1
  have hli : i < l.length := hlen ▸ hlt
  rw [List.getElem?_eq_getElem hli] at hsel
  exact Option.noConfusion hsel

theorem length_maskOf {κ : Type u} [DecidableEq κ] (k : κ) (l : List κ) :
    (maskOf k l).length = l.length := by simp [maskOf]

theorem maskOf_get? {κ : Type u} [DecidableEq κ] (k : κ) (l : List κ) (i : Nat) :
    (maskOf k l)[i]? = (l[i]?).map (fun s => decide (s = k)) := by simp [maskOf]

theorem maskOf_take {κ : Type u} [DecidableEq κ] (k : κ) (l : List κ) (i : Nat) :
    (maskOf k l).take i = maskOf k (l.take i) := by
  simp [maskOf, List.map_take]

theorem countTrue_maskOf {κ : Type u} [DecidableEq κ] (k : κ) :
    ∀ l : List κ, countTrue (maskOf k l) = cntK k l
  | [] => rfl
  | a :: l => by
    have IH : countTrue (List.map (fun s => decide (s = k)) l) = cntK k l :=
      countTrue_maskOf k l
    by_cases h : a = k <;> simp [maskOf, countTrue, cntK, h, IH]

theorem cntK_take_lt {κ : Type u} [DecidableEq κ] :
    ∀ (l : List κ) (i : Nat) (k : κ), l[i]? = some k → cntK k (l.take i) < cntK k l
  | [], i, k, h => by simp at h
  | a :: l, 0, k, h => by
    have hak : a = k := by simpa using h
    simp [hak, cntK]
  | a :: l, i + 1, k, h => by
    have IH := cntK_take_lt l i k (by simpa using h)
    by_cases ha : a = k <;> simp [List.take_succ_cons, cntK, ha] <;> omega

theorem le_natMax : ∀ {l : List Nat} {x : Nat}, x ∈ l → x ≤ natMax l
  | a :: r, x, h => by
    rcases List.mem_cons.mp h with rfl | h
    · simp [natMax, Nat.le_max_left]
    · exact le_trans (le_natMax h) (by simp [natMax, Nat.le_max_right])

theorem natMax_mem : ∀ {l : List Nat}, l ≠ [] → natMax l ∈ l
  | [a], _ => by simp [natMax]
  | a :: b :: r, _ => by
    rcases Nat.le_total a (natMax (b :: r)) with h | h
    · have hm := @natMax_mem (b :: r) (by simp)
      have he : natMax (a :: b :: r) = natMax (b :: r) := by
        show Nat.max a (natMax (b :: r)) = _
        exact Nat.max_eq_right h
      rw [he]
      exact List.mem_cons_of_mem a hm
    · have he : natMax (a :: b :: r) = a := by
        show Nat.max a (natMax (b :: r)) = a
        exact Nat.max_eq_left h
      rw [he]
      exact List.mem_cons_self a _

theorem mem_npUnique {l : List Nat} {t : Nat} : t ∈ npUnique l ↔ t ∈ l := by
  constructor
  · intro h
    have := (List.mem_filter.mp h).2
    simpa using this
  · intro h
    exact List.mem_filter.mpr
      ⟨List.mem_range.mpr (Nat.lt_succ_of_le (le_natMax h)), by simpa using h⟩

theorem length_npUnique_le (l : List Nat) : (npUnique l).length ≤ natMax l + 1 := by
  have := List.length_filter_le (fun t => decide (t ∈ l)) (List.range (natMax l + 1))
  simpa using this

theorem maskWrite_length {κ : Type u} {β : Type v} [DecidableEq κ] (key : κ) (f : Nat → β) :
    ∀ (ks : List κ) (out : List β) (c : Nat), ks.length = out.length →
    (maskWrite key f ks out c).length = out.length
  | [], _, _, _ => rfl
  | k :: ks, v :: vs, c, h => by
    by_cases hk : k = key <;>
      simp [maskWrite, hk, maskWrite_length key f ks vs _ (Nat.succ.inj h)]
  | _ :: _, [], _, h => by simp at h

theorem maskWrite_get? {κ : Type u} {β : Type v} [DecidableEq κ] (key : κ) (f : Nat → β) :
    ∀ (ks : List κ) (out : List β) (c i : Nat), ks.length = out.length →
    (maskWrite key f ks out c)[i]? =
      if ks[i]? = some key then some (f (c + cntK key (ks.take i))) else out[i]?
  | [], out, c, i, _ => by simp [maskWrite]
  | k :: ks, v :: vs, c, 0, _ => by
    by_cases hk : k = key <;> simp [maskWrite, hk, cntK]
  | k :: ks, v :: vs, c, i + 1, h => by
    by_cases hk : k = key
    · have IH := maskWrite_get? key f ks vs (c + 1) i (Nat.succ.inj h)
      simp only [maskWrite, if_pos hk, List.getElem?_cons_succ, List.take_succ_cons, cntK,
        if_pos hk, IH]
      split
      · rw [Nat.add_assoc]
      · rfl
    · have IH := maskWrite_get? key f ks vs c i (Nat.succ.inj h)
      simp only [maskWrite, if_neg hk, List.getElem?_cons_succ, List.take_succ_cons, cntK,
        if_neg hk, IH, Nat.zero_add]
  | _ :: _, [], _, _, h => by simp at h

theorem foldMaskWrite_length {κ σ : Type u} {β : Type v} [DecidableEq κ]
    (key : σ → κ) (f : σ → Nat → β) (combos : List κ) :
    ∀ (S : List σ) (out : List β), combos.length = out.length →
    (S.foldl (fun o g => maskWrite (key g) (f g) combos o 0) out).length = out.length
  | [], _, _ => rfl
  | g :: S, out, h => by
    rw [List.foldl_cons]
    have h1 : (maskWrite (key g) (f g) combos out 0).length = out.length :=
      maskWrite_length (key g) (f g) combos out 0 h
    rw [foldMaskWrite_length key f combos S _ (by rw [h1]; exact h)]
    exact h1

theorem foldMaskWrite_untouched {κ σ : Type u} {β : Type v} [DecidableEq κ]
    (key : σ → κ) (f : σ → Nat → β) (combos : List κ) :
    ∀ (S : List σ) (out : List β) (i : Nat), combos.length = out.length →
    (∀ g ∈ S, combos[i]? ≠ some (key g)) →
    (S.foldl (fun o g => maskWrite (key g) (f g) combos o 0) out)[i]? = out[i]?
  | [], _, _, _, _ => rfl
  | g :: S, out, i, h, hno => by
    rw [List.foldl_cons]
    have h1 : (maskWrite (key g) (f g) combos out 0).length = out.length :=
      maskWrite_length (key g) (f g) combos out 0 h
    rw [foldMaskWrite_untouched key f combos S _ i (by rw [h1]; exact h)
          (fun g2 hg2 => hno g2 (List.mem_cons_of_mem g hg2)),
        maskWrite_get? (key g) (f g) combos out 0 i h,
        if_neg (hno g (List.mem_cons_self g S))]

theorem foldMaskWrite_get? {κ σ : Type u} {β : Type v} [DecidableEq κ]
    (key : σ → κ) (f : σ → Nat → β) (combos : List κ) :
    ∀ (S : List σ) (out : List β) (i : Nat) (c : κ) (s : σ),
    combos.length = out.length → (S.map key).Nodup → s ∈ S → key s = c →
    combos[i]? = some c →
    (S.foldl (fun o g => maskWrite (key g) (f g) combos o 0) out)[i]? =
      some (f s (cntK c (combos.take i)))
  | [], _, _, _, _, _, _, hs, _, _ => absurd hs (List.not_mem_nil _)
  | g :: S, out, i, c, s, h, hnd, hs, hks, hci => by
    rw [List.foldl_cons]
    have h1 : (maskWrite (key g) (f g) combos out 0).length = out.length :=
      maskWrite_length (key g) (f g) combos out 0 h
    rcases List.mem_cons.mp hs with rfl | hsS
    · have hrest : ∀ g2 ∈ S, combos[i]? ≠ some (key g2) := by
        intro g2 hg2 hcon
        rw [hci] at hcon
        have hkey2 : key g2 = c := (Option.some.inj hcon).symm
        have hmem : key g2 ∈ S.map key := List.mem_map_of_mem key hg2
        rw [hkey2, ← hks] at hmem
        exact (List.nodup_cons.mp hnd).1 hmem
      rw [foldMaskWrite_untouched key f combos S _ i (by rw [h1]; exact h) hrest,
          maskWrite_get? (key s) (f s) combos out 0 i h, hks, if_pos hci, Nat.zero_add]
    · exact foldMaskWrite_get? key f combos S _ i c s (by rw [h1]; exact h)
        (List.nodup_cons.mp hnd).2 hsS hks hci

theorem fancyIndex_ok {α : Type u} :
    ∀ (xs : List α) (idx : List Nat), (∀ x ∈ idx, x < xs.length) →
    ∃ l, fancyIndex xs idx = .ok l ∧ l.length = idx.length ∧
      ∀ j : Nat, l[j]? = (idx[j]?).bind (fun ix => xs[ix]?)
  | xs, [], _ => ⟨[], rfl, rfl, by simp⟩
  | xs, i :: idx, h => by
    obtain ⟨l, hl, hlen, hget⟩ :=
      fancyIndex_ok xs idx (fun x hx => h x (List.mem_cons_of_mem i hx))
    have hi : i < xs.length := h i (List.mem_cons_self i idx)
    obtain ⟨a, ha⟩ : ∃ a, xs[i]? = some a := ⟨xs[i], List.getElem?_eq_getElem hi⟩
    refine ⟨a :: l, ?_, by simp [hlen], ?_⟩
    · simp only [fancyIndex, ha, hl]
    · intro j
      cases j with
      | zero => simp [ha]
      | succ j => simpa using hget j

theorem listGet_ok_iff {α : Type u} {xs : List α} {i : Nat} {a : α} :
    listGet xs i = .ok a ↔ xs[i]? = some a := by
  unfold listGet
  cases h : xs[i]? <;> simp

/-! ### Inversion and construction lemmas for the validity checker -/

theorem boolIndex_ok {α : Type u} {m : List Bool} {l : List α}
    (h : m.length = l.length) : boolIndex m l = .ok (maskSel m l) := by
  unfold boolIndex
  rw [if_pos h]

theorem boolIndex_ok_inv {α : Type u} {m : List Bool} {l : List α} {sel : List α}
    (h : boolIndex m l = .ok sel) : m.length = l.length ∧ sel = maskSel m l := by
  unfold boolIndex at h
  split at h
  · exact ⟨by assumption, (Except.ok.inj h).symm⟩
  · exact Except.noConfusion h

theorem npMaxNat_ok {l : List Nat} (h : l ≠ []) : npMaxNat l = .ok (natMax l) := by
  cases l with
  | nil => exact absurd rfl h
  | cons a r => rfl

theorem npMaxNat_ok_inv {l : List Nat} {m : Nat} (h : npMaxNat l = .ok m) :
    l ≠ [] ∧ m = natMax l := by
  cases l with
  | nil => exact Except.noConfusion h
  | cons a r => exact ⟨by simp, (Except.ok.inj h).symm⟩

theorem validLoop_ok_inv {γ : Type u} (clen : γ → Nat) (tags index : List Nat)
    (contents : List γ) :
    ∀ L : List Nat, validLoop clen tags index contents L = .ok () →
    ∀ t ∈ L, tags.length = index.length ∧
      ∃ br, contents[t]? = some br ∧ ∀ x ∈ maskSel (maskOf t tags) index, x < clen br
  | [], _, t, ht => absurd ht (List.not_mem_nil t)
  | t0 :: L, h, t, ht => by
    simp only [validLoop] at h
    split at h
    · exact Except.noConfusion h
    next sel hbi =>
      split at h
      · exact Except.noConfusion h
      next mxi hmx =>
        split at h
        · exact Except.noConfusion h
        next br hlg =>
          split at h
          · exact Except.noConfusion h
          next hnle =>
            rcases List.mem_cons.mp ht with rfl | htL
            · obtain ⟨hml, hsel⟩ := boolIndex_ok_inv hbi
              obtain ⟨hne, hmxe⟩ := npMaxNat_ok_inv hmx
              rw [length_maskOf] at hml
              refine ⟨hml, br, listGet_ok_iff.mp hlg, ?_⟩
              intro x hx
              rw [← hsel] at hx
              calc x ≤ natMax sel := le_natMax hx
                _ = mxi := hmxe.symm
                _ < clen br := Nat.lt_of_not_le hnle
            · exact validLoop_ok_inv clen tags index contents L h t htL

theorem validLoop_ok_of {γ : Type u} (clen : γ → Nat) (tags index : List Nat)
    (contents : List γ) :
    ∀ L : List Nat, tags.length = index.length →
    (∀ t ∈ L, t ∈ tags) →
    (∀ t ∈ L, ∃ br, contents[t]? = some br ∧
      ∀ x ∈ maskSel (maskOf t tags) index, x < clen br) →
    validLoop clen tags index contents L = .ok ()
  | [], _, _, _ => rfl
  | t :: L, hlen, hmem, hbnd => by
    obtain ⟨br, hbr, hx⟩ := hbnd t (List.mem_cons_self t L)
    have hml : (maskOf t tags).length = index.length := by
      rw [length_maskOf]; exact hlen
    obtain ⟨i, hti⟩ := List.mem_iff_getElem?.mp (hmem t (List.mem_cons_self t L))
    have hmi : (maskOf t tags)[i]? = some true := by
      rw [maskOf_get?, hti]; simp
    have hne := maskSel_ne_nil hml hmi
    have hbr2 : listGet contents t = .ok br := listGet_ok_iff.mpr hbr
    have hnpm := npMaxNat_ok hne
    have hlt : ¬ clen br ≤ natMax (maskSel (maskOf t tags) index) :=
      Nat.not_le.mpr (hx _ (natMax_mem hne))
    simp only [validLoop, boolIndex_ok hml, hnpm, hbr2, if_neg hlt]
    exact validLoop_ok_of clen tags index contents L hlen
      (fun t2 ht2 => hmem t2 (List.mem_cons_of_mem t ht2))
      (fun t2 ht2 => hbnd t2 (List.mem_cons_of_mem t ht2))

theorem validCore_ok_inv {γ : Type u} {clen : γ → Nat} {tags index : List Nat}
    {contents : List γ} (h : validCore clen tags index contents = .ok ()) :
    (tags ≠ [] → natMax tags < contents.length) ∧
    validLoop clen tags (index.take tags.length) contents (npUnique tags) = .ok () := by
  unfold validCore at h
  split at h
  · exact Except.noConfusion h
  next hcond =>
    refine ⟨?_, h⟩
    intro hne
    by_contra hlt
    exact hcond ⟨hne, Nat.le_of_not_lt hlt⟩

theorem validCore_ok_of {γ : Type u} {clen : γ → Nat} {tags index : List Nat}
    {contents : List γ}
    (hmax : tags ≠ [] → natMax tags < contents.length)
    (hloop : validLoop clen tags (index.take tags.length) contents (npUnique tags) = .ok ()) :
    validCore clen tags index contents = .ok () := by
  unfold validCore
  rw [if_neg]
  · exact hloop
  · rintro ⟨hne, hle⟩
    exact absurd (hmax hne) (Nat.not_lt.mpr hle)

theorem validCore_lenle {γ : Type u} {clen : γ → Nat} {tags index : List Nat}
    {contents : List γ} (h : validCore clen tags index contents = .ok ())
    (hne : tags ≠ []) : tags.length ≤ index.length := by
  obtain ⟨-, hloop⟩ := validCore_ok_inv h
  have hmem : natMax tags ∈ npUnique tags := mem_npUnique.mpr (natMax_mem hne)
  obtain ⟨hlen, -⟩ := validLoop_ok_inv clen tags _ contents (npUnique tags) hloop _ hmem
  rw [List.length_take] at hlen
  omega

theorem validCore_bound {γ : Type u} {clen : γ → Nat} {tags index : List Nat}
    {contents : List γ} (h : validCore clen tags index contents = .ok ())
    {i t ix : Nat} (ht : tags[i]? = some t)
    (hix : (index.take tags.length)[i]? = some ix) :
    ∃ br, contents[t]? = some br ∧ ix < clen br := by
  obtain ⟨-, hloop⟩ := validCore_ok_inv h
  have htm : t ∈ tags := List.getElem?_mem ht
  obtain ⟨hlen, br, hbr, hbnd⟩ :=
    validLoop_ok_inv clen tags _ contents (npUnique tags) hloop t (mem_npUnique.mpr htm)
  refine ⟨br, hbr, ?_⟩
  have hmi : (maskOf t tags)[i]? = some true := by
    rw [maskOf_get?, ht]; simp
  have hml : (maskOf t tags).length = (index.take tags.length).length := by
    rw [length_maskOf]; exact hlen
  have hsel := maskSel_get_count (maskOf t tags) (index.take tags.length) i hml hmi
  rw [hix] at hsel
  exact hbnd ix (List.getElem?_mem hsel)

/-! ### Selector correspondence -/

theorem applySel_arr_pair {α : Type u} {β : Type v} (s : Sel) (xs : List α) (ys : List β)
    (hlen : xs.length = ys.length) {lx : List α} {ly : List β}
    (hx : applySel s xs = .ok (.arr lx)) (hy : applySel s ys = .ok (.arr ly)) :
    lx.length = ly.length ∧
    ∀ (j : Nat) (a : α) (b : β), lx[j]? = some a → ly[j]? = some b →
      ∃ i : Nat, xs[i]? = some a ∧ ys[i]? = some b := by
  cases s with
  | scalar i =>
    simp only [applySel] at hx
    cases hxi : xs[i]? with
    | some a =>
      rw [hxi] at hx
      exact SelRes.noConfusion (Except.ok.inj hx)
    | none =>
      rw [hxi] at hx
      exact Except.noConfusion hx
  | slice a b =>
    simp only [applySel] at hx hy
    have hlx : lx = (xs.drop a).take (b - a) := (SelRes.arr.inj (Except.ok.inj hx)).symm
    have hly : ly = (ys.drop a).take (b - a) := (SelRes.arr.inj (Except.ok.inj hy)).symm
    subst hlx hly
    constructor
    · simp [hlen]
    · intro j x y hxj hyj
      rw [List.getElem?_take] at hxj hyj
      by_cases hj : j < b - a
      · rw [if_pos hj] at hxj hyj
        rw [List.getElem?_drop] at hxj hyj
        exact ⟨a + j, hxj, hyj⟩
      · rw [if_neg hj] at hxj
        exact Option.noConfusion hxj
  | mask m =>
    simp only [applySel] at hx hy
    cases hbx : boolIndex m xs with
    | error e => rw [hbx] at hx; exact Except.noConfusion hx
    | ok selx =>
      rw [hbx] at hx
      cases hby : boolIndex m ys with
      | error e => rw [hby] at hy; exact Except.noConfusion hy
      | ok sely =>
        rw [hby] at hy
        obtain ⟨hmx, hselx⟩ := boolIndex_ok_inv hbx
        obtain ⟨hmy, hsely⟩ := boolIndex_ok_inv hby
        have hlx : lx = maskSel m xs :=
          (SelRes.arr.inj (Except.ok.inj hx)).symm.trans hselx
        have hly : ly = maskSel m ys :=
          (SelRes.arr.inj (Except.ok.inj hy)).symm.trans hsely
        subst hlx hly
        constructor
        · rw [maskSel_length m xs hmx, maskSel_length m ys hmy]
        · intro j x y hxj hyj
          obtain ⟨i, _, hxi, hyi⟩ := maskSel_pair m xs ys j x y hmx hmy hxj hyj
          exact ⟨i, hxi, hyi⟩

theorem applySel_arr_exists {α : Type u} {β : Type v} (s : Sel) (xs : List α) (ys : List β)
    (hlen : xs.length = ys.length) {lx : List α}
    (hx : applySel s xs = .ok (.arr lx)) :
    ∃ ly, applySel s ys = .ok (.arr ly) := by
  cases s with
  | scalar i =>
    simp only [applySel] at hx
    cases hxi : xs[i]? with
    | some a =>
      rw [hxi] at hx
      exact SelRes.noConfusion (Except.ok.inj hx)
    | none =>
      rw [hxi] at hx
      exact Except.noConfusion hx
  | slice a b => exact ⟨(ys.drop a).take (b - a), rfl⟩
  | mask m =>
    simp only [applySel] at hx
    cases hbx : boolIndex m xs with
    | error e => rw [hbx] at hx; exact Except.noConfusion hx
    | ok selx =>
      obtain ⟨hmx, -⟩ := boolIndex_ok_inv hbx
      refine ⟨maskSel m ys, ?_⟩
      simp only [applySel]
      rw [boolIndex_ok (hmx.trans hlen)]

/-- C10: validation and positional reads consult only the first
`len(tags)` entries of `index`: any two arrays agreeing on tags, contents
and `index[:len(tags)]` validate identically and give identical results on
every positional read, whatever junk lies at or beyond position
`len(tags)` in either index. -/
theorem read_depends_only_on_truncated_index {α : Type u}
    (tags index1 index2 : List Nat) (contents : List (List α)) (s : Sel)
    (h : index1.take tags.length = index2.take tags.length) :
    uvalid ⟨tags, index1, contents⟩ = uvalid ⟨tags, index2, contents⟩ ∧
    getPos ⟨tags, index1, contents⟩ s = getPos ⟨tags, index2, contents⟩ s := by
  have hv : validCore List.length tags index1 contents =
      validCore List.length tags index2 contents := by
    unfold validCore
    rw [h]
  constructor
  · exact hv
  · show getCore tags index1 contents s = getCore tags index2 contents s
    unfold getCore
    rw [hv, h]

/-- Witness for the truncation theorem: an index carrying the junk value
999 beyond position `len(tags)` behaves exactly like the junk-free one. -/
theorem read_depends_only_on_truncated_index_witness :
    uvalid ⟨[0], exTrunc1, [[7]]⟩ = uvalid ⟨[0], exTrunc2, [[7]]⟩ ∧
    getPos ⟨[0], exTrunc1, [[7]]⟩ (Sel.scalar 0) =
      getPos ⟨[0], exTrunc2, [[7]]⟩ (Sel.scalar 0) :=
  read_depends_only_on_truncated_index [0] exTrunc1 exTrunc2 [[7]] (Sel.scalar 0) rfl

/-- C4: on a valid union, a positional selection whose selected tags are
non-empty and all equal to `t0` narrows to exactly `contents[t0]` indexed
by the corresponding selected index values, with no union wrapper; an
empty selection delegates to branch 0, giving a well-typed empty result. -/
theorem getPos_homogeneous_narrowing {α : Type u} (u : UnionArray (List α)) (s : Sel)
    (hv : uvalid u = .ok ()) (hc : u.contents ≠ [])
    (tagsSel indexSel : List Nat)
    (ht : applySel s u.tags = .ok (.arr tagsSel))
    (hi : applySel s (u.index.take u.tags.length) = .ok (.arr indexSel)) :
    (∀ t0 : Nat, tagsSel.head? = some t0 →
      tagsSel.all (fun t => decide (t = t0)) = true →
      ∃ br l, u.contents[t0]? = some br ∧ getPos u s = .ok (.branch l) ∧
        l.length = indexSel.length ∧
        ∀ j : Nat, l[j]? = (indexSel[j]?).bind (fun ix => br[ix]?)) ∧
    (tagsSel = [] → getPos u s = .ok (.branch [])) := by
  have hvc : validCore List.length u.tags u.index u.contents = .ok () := hv
  have hlen : u.tags.length = (u.index.take u.tags.length).length := by
    rw [List.length_take]
    rcases eq_or_ne u.tags [] with he | hne
    · simp [he]
    · have := validCore_lenle hvc hne
      omega
  obtain ⟨hleneq, hpair⟩ :=
    applySel_arr_pair s u.tags (u.index.take u.tags.length) hlen ht hi
  constructor
  · intro t0 hhead hall
    cases tagsSel with
    | nil => exact Option.noConfusion hhead
    | cons a rest =>
      have ha : a = t0 := by simpa using hhead
      subst ha
      have hallj : ∀ (j tj : Nat), (a :: rest)[j]? = some tj → tj = a := by
        intro j tj hj
        have := List.all_eq_true.mp hall tj (List.getElem?_mem hj)
        simpa using this
      -- the head tag is in range
      obtain ⟨ix0, hix0⟩ : ∃ ix0, indexSel[0]? = some ix0 := by
        have hl0 : 0 < indexSel.length := by
          rw [← hleneq]; simp
        exact ⟨indexSel[0], List.getElem?_eq_getElem hl0⟩
      obtain ⟨i0, hti0, hii0⟩ := hpair 0 a ix0 (by simp) hix0
      obtain ⟨br, hbr, -⟩ := validCore_bound hvc hti0 hii0
      -- every selected index value is in range for the selected branch
      have hbnd : ∀ x ∈ indexSel, x < br.length := by
        intro x hx
        obtain ⟨j, hj⟩ := List.mem_iff_getElem?.mp hx
        have hjlt : j < (a :: rest).length := by
          have : j < indexSel.length := (List.getElem?_eq_some_iff.mp hj).1
          omega
        obtain ⟨tj, htj⟩ : ∃ tj, (a :: rest)[j]? = some tj :=
          ⟨(a :: rest)[j], List.getElem?_eq_getElem hjlt⟩
        have htj0 : tj = a := hallj j tj htj
        subst htj0
        obtain ⟨i, hti, hii⟩ := hpair j tj x htj hj
        obtain ⟨br2, hbr2, hxlt⟩ := validCore_bound hvc hti hii
        rw [hbr] at hbr2
        rw [Option.some.inj hbr2]
        exact hxlt
      obtain ⟨l, hfi, hlenl, hget⟩ := fancyIndex_ok br indexSel hbnd
      refine ⟨br, l, hbr, ?_, hlenl, hget⟩
      show getCore u.tags u.index u.contents s = .ok (.branch l)
      simp only [getCore, hvc, ht, hi, if_pos hall, listGet_ok_iff.mpr hbr, hfi]
  · intro htS
    subst htS
    have hiS : indexSel = [] := by
      have : indexSel.length = 0 := by simpa using hleneq.symm
      exact List.length_eq_zero.mp this
    subst hiS
    obtain ⟨c0, hc0⟩ : ∃ c0, u.contents[0]? = some c0 := by
      cases hcc : u.contents with
      | nil => exact absurd hcc hc
      | cons a l => exact ⟨a, by simp⟩
    show getCore u.tags u.index u.contents s = .ok (.branch [])
    simp only [getCore, hvc, ht, hi, listGet_ok_iff.mpr hc0, fancyIndex]

/-- Witness for the narrowing theorem: slicing `[0:2]` out of a mixed
union whose first two tags are both 0 narrows to branch 0. -/
theorem getPos_homogeneous_narrowing_witness :
    ∃ br l, exNarrow.contents[0]? = some br ∧
      getPos exNarrow (Sel.slice 0 2) = .ok (.branch l) ∧
      l.length = ([0, 1] : List Nat).length ∧
      ∀ j : Nat, l[j]? = (([0, 1] : List Nat)[j]?).bind (fun ix => br[ix]?) :=
  (getPos_homogeneous_narrowing exNarrow (Sel.slice 0 2) rfl (by decide)
    [0, 0] [0, 1] rfl rfl).1 0 rfl (by decide)

/-! ### Invariant preservation for positional reads, and the field-name
read characterisation -/

theorem filter_length_eq {α : Type u} (p : α → Bool) :
    ∀ l : List α, (l.filter p).length = l.length → l.filter p = l
  | [], _ => rfl
  | a :: l, h => by
    cases hp : p a with
    | true =>
      rw [List.filter_cons, if_pos hp] at h ⊢
      simp only [List.length_cons] at h
      rw [filter_length_eq p l (by omega)]
    | false =>
      rw [List.filter_cons, if_neg (by simp [hp])] at h
      simp only [List.length_cons] at h
      have := List.length_filter_le p l
      omega

theorem getPos_union_valid_aux {α : Type u} (u : UnionArray (List α)) (s : Sel)
    (r : UnionArray (List α)) (hv : uvalid u = .ok ())
    (hg : getPos u s = .ok (.union r)) : uvalid r = .ok () := by
  have hvc : validCore List.length u.tags u.index u.contents = .ok () := hv
  rw [show getPos u s = getCore u.tags u.index u.contents s from rfl] at hg
  simp only [getCore, hvc] at hg
  cases hts : applySel s u.tags with
  | error e => rw [hts] at hg; exact Except.noConfusion hg
  | ok tr =>
    simp only [hts] at hg
    cases his : applySel s (u.index.take u.tags.length) with
    | error e => rw [his] at hg; exact Except.noConfusion hg
    | ok ir =>
      simp only [his] at hg
      cases tr with
      | scalar t =>
        cases ir with
        | arr l => exact Except.noConfusion hg
        | scalar ix =>
          cases hlg : listGet u.contents t with
          | error e => simp only [hlg] at hg; exact Except.noConfusion hg
          | ok br =>
            simp only [hlg] at hg
            cases hbx : br[ix]? with
            | none => simp only [hbx] at hg; exact Except.noConfusion hg
            | some a =>
              simp only [hbx] at hg
              exact GetResult.noConfusion (Except.ok.inj hg)
      | arr tagsSel =>
        cases ir with
        | scalar ix => exact Except.noConfusion hg
        | arr indexSel =>
          have hlen : u.tags.length = (u.index.take u.tags.length).length := by
            rw [List.length_take]
            rcases eq_or_ne u.tags [] with he | hne
            · simp [he]
            · have := validCore_lenle hvc hne
              omega
          obtain ⟨hleneq, hpair⟩ :=
            applySel_arr_pair s u.tags (u.index.take u.tags.length) hlen hts his
          cases tagsSel with
          | nil =>
            cases hlg : listGet u.contents 0 with
            | error e => simp only [hlg] at hg; exact Except.noConfusion hg
            | ok c0 =>
              simp only [hlg] at hg
              cases hfi : fancyIndex c0 indexSel with
              | error e => simp only [hfi] at hg; exact Except.noConfusion hg
              | ok l =>
                simp only [hfi] at hg
                exact GetResult.noConfusion (Except.ok.inj hg)
          | cons t0 rest =>
            cases hall : (t0 :: rest).all (fun t => decide (t = t0)) with
            | true =>
              simp only [hall, eq_self_iff_true, if_true] at hg
              cases hlg : listGet u.contents t0 with
              | error e => simp only [hlg] at hg; exact Except.noConfusion hg
              | ok br =>
                simp only [hlg] at hg
                cases hfi : fancyIndex br indexSel with
                | error e => simp only [hfi] at hg; exact Except.noConfusion hg
                | ok l =>
                  simp only [hfi] at hg
                  exact GetResult.noConfusion (Except.ok.inj hg)
            | false =>
              simp only [hall, Bool.false_eq_true, if_false] at hg
              have hr : UnionArray.mk (t0 :: rest) indexSel u.contents = r :=
                GetResult.union.inj (Except.ok.inj hg)
              subst hr
              have hmemtags : ∀ t ∈ t0 :: rest, t ∈ u.tags := by
                intro t htm
                obtain ⟨j, hj⟩ := List.mem_iff_getElem?.mp htm
                have hjlt : j < (t0 :: rest).length := (List.getElem?_eq_some_iff.mp hj).1
                obtain ⟨x, hx⟩ : ∃ x, indexSel[j]? = some x := by
                  have : j < indexSel.length := by omega
                  exact ⟨indexSel[j], List.getElem?_eq_getElem this⟩
                obtain ⟨i, hti, -⟩ := hpair j t x hj hx
                exact List.getElem?_mem hti
              have hneu : u.tags ≠ [] := by
                intro he
                have := hmemtags t0 (List.mem_cons_self t0 rest)
                rw [he] at this
                exact List.not_mem_nil t0 this
              have hmaxu := (validCore_ok_inv hvc).1 hneu
              show validCore List.length (t0 :: rest) indexSel u.contents = .ok ()
              apply validCore_ok_of
              · intro _
                have hmm := @natMax_mem (t0 :: rest) (by simp)
                exact Nat.lt_of_le_of_lt (le_natMax (hmemtags _ hmm)) hmaxu
              · have htake : indexSel.take (t0 :: rest).length = indexSel :=
                  List.take_of_length_le (by omega)
                rw [htake]
                apply validLoop_ok_of
                · omega
                · intro t htm
                  exact mem_npUnique.mp htm
                · intro t htm
                  have htin : t ∈ t0 :: rest := mem_npUnique.mp htm
                  have htu : t ∈ u.tags := hmemtags t htin
                  have htlt : t < u.contents.length :=
                    Nat.lt_of_le_of_lt (le_natMax htu) hmaxu
                  refine ⟨u.contents[t], List.getElem?_eq_getElem htlt, ?_⟩
                  intro x hx
                  obtain ⟨j, hmj, hxj⟩ :=
                    maskSel_mem (by rw [length_maskOf]; omega) hx
                  obtain ⟨tj, htj, hdec⟩ : ∃ tj, (t0 :: rest)[j]? = some tj ∧
                      decide (tj = t) = true := by
                    rw [maskOf_get?] at hmj
                    cases hjj : (t0 :: rest)[j]? with
                    | none => rw [hjj] at hmj; exact Option.noConfusion hmj
                    | some tj =>
                      rw [hjj] at hmj
                      exact ⟨tj, rfl, by simpa using hmj⟩
                  have htjt : tj = t := by simpa using hdec
                  subst htjt
                  obtain ⟨i, hti, hii⟩ := hpair j tj x htj hxj
                  obtain ⟨br2, hbr2, hxlt⟩ := validCore_bound hvc hti hii
                  rw [List.getElem?_eq_getElem htlt] at hbr2
                  rw [Option.some.inj hbr2]
                  exact hxlt

theorem fieldReadLoop_ok_length {α : Type u} (contents : List (Table α)) (f : String) :
    ∀ (L : List Nat) (cs : List (List α)),
    fieldReadLoop contents f L = .ok cs → cs.length = L.length
  | [], cs, h => by
    have : ([] : List (List α)) = cs := Except.ok.inj h
    simp [← this]
  | t :: L, cs, h => by
    simp only [fieldReadLoop] at h
    cases hlg : listGet contents t with
    | error e => simp only [hlg] at h; exact Except.noConfusion h
    | ok tbl =>
      simp only [hlg] at h
      cases hp : tableProj tbl f with
      | error e => simp only [hp] at h; exact Except.noConfusion h
      | ok col =>
        simp only [hp] at h
        cases hrec : fieldReadLoop contents f L with
        | error e => simp only [hrec] at h; exact Except.noConfusion h
        | ok cs2 =>
          simp only [hrec] at h
          have hcs : col :: cs2 = cs := Except.ok.inj h
          have IH := fieldReadLoop_ok_length contents f L cs2 hrec
          rw [← hcs]
          simp [IH]

theorem fieldRead_char_aux {α : Type u} (u : UnionArray (Table α)) (f : String)
    (hv : uvalidT u = .ok ()) (hne : u.tags ≠ []) (r : UnionArray (List α))
    (hr : fieldRead u f = .ok r) :
    r.tags = u.tags ∧ r.index = u.index ∧
    r.contents.length = (npUnique u.tags).length ∧
    (natMax u.tags < r.contents.length ↔
      npUnique u.tags = List.range (natMax u.tags + 1)) := by
  simp only [fieldRead, hv] at hr
  cases hloop : fieldReadLoop u.contents f (npUnique u.tags) with
  | error e => rw [hloop] at hr; exact Except.noConfusion hr
  | ok cs =>
    simp only [hloop] at hr
    have hcslen : cs.length = (npUnique u.tags).length :=
      fieldReadLoop_ok_length u.contents f (npUnique u.tags) cs hloop
    have hLne : npUnique u.tags ≠ [] := by
      intro he
      have := mem_npUnique.mpr (natMax_mem hne)
      rw [he] at this
      exact List.not_mem_nil _ this
    cases cs with
    | nil => exact absurd (List.length_eq_zero.mp hcslen.symm) hLne
    | cons c0 cs2 =>
      have hreq : UnionArray.mk u.tags u.index (c0 :: cs2) = r := Except.ok.inj hr
      subst hreq
      refine ⟨rfl, rfl, hcslen, ?_, ?_⟩
      · intro hlt
        have hlt2 : natMax u.tags < (c0 :: cs2).length := hlt
        have hle := length_npUnique_le u.tags
        have hfull : (npUnique u.tags).length = natMax u.tags + 1 := by omega
        exact filter_length_eq _ _ (by rw [List.length_range]; exact hfull)
      · intro heq
        have hlen2 : (npUnique u.tags).length = natMax u.tags + 1 := by
          rw [heq, List.length_range]
        show natMax u.tags < (c0 :: cs2).length
        omega

/-- C1 (amended): on a valid UnionArray every positional read that returns
a union result returns one that again satisfies I1-I3 (scalar and
narrowed-branch results carry no union structure, and all failures raise);
the field-name read, however, returns — without error — an array with tags
and index unchanged and exactly one projected branch per distinct tag
value present, and its result satisfies I2 (`max(tags) < len(contents)`)
if and only if the distinct tag values are exactly `{0, …, max(tags)}`;
when a value below `max(tags)` is absent the read silently returns a
structurally invalid array. -/
theorem read_invariant_amended :
    (∀ (u : UnionArray (List Nat)) (s : Sel) (r : UnionArray (List Nat)),
      uvalid u = .ok () → getPos u s = .ok (.union r) → uvalid r = .ok ()) ∧
    (∀ (u : UnionArray (Table Nat)) (f : String) (r : UnionArray (List Nat)),
      uvalidT u = .ok () → u.tags ≠ [] → fieldRead u f = .ok r →
      r.tags = u.tags ∧ r.index = u.index ∧
      r.contents.length = (npUnique u.tags).length ∧
      (natMax u.tags < r.contents.length ↔
        npUnique u.tags = List.range (natMax u.tags + 1))) :=
  ⟨fun u s r hv hg => getPos_union_valid_aux u s r hv hg,
   fun u f r hv hne hr => fieldRead_char_aux u f hv hne r hr⟩

/-- Witness for the amended invariant theorem: a mixed boolean-mask read
returns a union that still validates, and the field-name read on tags
`[0, 2]` returns two contents for distinct tags `{0, 2} ≠ {0, 1, 2}`. -/
theorem read_invariant_amended_witness :
    uvalid (⟨[0, 1], [0, 0], [[10, 20], [30]]⟩ : UnionArray (List Nat)) = .ok () ∧
    (exFieldResult.tags = exFieldTables.tags ∧ exFieldResult.index = exFieldTables.index ∧
      exFieldResult.contents.length = (npUnique exFieldTables.tags).length ∧
      (natMax exFieldTables.tags < exFieldResult.contents.length ↔
        npUnique exFieldTables.tags = List.range (natMax exFieldTables.tags + 1))) :=
  ⟨read_invariant_amended.1 exNarrow (Sel.mask [true, false, true])
      ⟨[0, 1], [0, 0], [[10, 20], [30]]⟩ rfl rfl,
   read_invariant_amended.2 exFieldTables "x" exFieldResult rfl (by decide) rfl⟩

/-! ### Sequentiality and the sequential factory -/

theorem cntK_rank_exists {κ : Type u} [DecidableEq κ] :
    ∀ (l : List κ) (k : κ) (j : Nat), j < cntK k l →
    ∃ i : Nat, l[i]? = some k ∧ cntK k (l.take i) = j
  | [], k, j, h => by simp [cntK] at h
  | a :: l, k, j, h => by
    by_cases ha : a = k
    · cases j with
      | zero => exact ⟨0, by simp [ha], by simp [cntK]⟩
      | succ j =>
        have hj : j < cntK k l := by
          simp only [cntK, if_pos ha] at h
          omega
        obtain ⟨i, hi, hc⟩ := cntK_rank_exists l k j hj
        refine ⟨i + 1, by simpa using hi, ?_⟩
        simp only [List.take_succ_cons, cntK, if_pos ha]
        omega
    · have hj : j < cntK k l := by
        simp only [cntK, if_neg ha] at h
        omega
      obtain ⟨i, hi, hc⟩ := cntK_rank_exists l k j hj
      refine ⟨i + 1, by simpa using hi, ?_⟩
      simp only [List.take_succ_cons, cntK, if_neg ha]
      omega

theorem seq_sel_eq (tags index : List Nat) (t : Nat)
    (hlen : tags.length = index.length)
    (hpt : ∀ i : Nat, index[i]? = (tags[i]?).map (fun s => cntK s (tags.take i))) :
    maskSel (maskOf t tags) index = List.range (cntK t tags) := by
  have hlen2 : (maskOf t tags).length = index.length := by
    rw [length_maskOf]; exact hlen
  apply List.ext_getElem?
  intro j
  by_cases hj : j < cntK t tags
  · obtain ⟨i, hti, hci⟩ := cntK_rank_exists tags t j hj
    have hmi : (maskOf t tags)[i]? = some true := by
      rw [maskOf_get?, hti]; simp
    have hrank := maskSel_get_count (maskOf t tags) index i hlen2 hmi
    have hcnt : countTrue ((maskOf t tags).take i) = j := by
      rw [maskOf_take, countTrue_maskOf, hci]
    rw [hcnt] at hrank
    rw [hrank, hpt i, hti, List.getElem?_range hj]
    simp [hci]
  · have h1 : (maskSel (maskOf t tags) index).length ≤ j := by
      rw [maskSel_length _ _ hlen2, countTrue_maskOf]
      omega
    rw [List.getElem?_eq_none h1, List.getElem?_eq_none (by simp; omega)]

theorem seqCheck_ok_of (tags index : List Nat) (hlen : tags.length = index.length)
    (hpt : ∀ i : Nat, index[i]? = (tags[i]?).map (fun s => cntK s (tags.take i))) :
    ∀ L : List Nat, seqCheck tags index L = .ok true
  | [] => rfl
  | t :: L => by
    have hsel := seq_sel_eq tags index t hlen hpt
    have hml : (maskOf t tags).length = index.length := by
      rw [length_maskOf]; exact hlen
    simp only [seqCheck, boolIndex_ok hml]
    rw [if_pos (by rw [hsel, countTrue_maskOf])]
    exact seqCheck_ok_of tags index hlen hpt L

theorem seqCheck_ok_true_inv (tags index : List Nat) :
    ∀ L : List Nat, seqCheck tags index L = .ok true → ∀ t ∈ L,
      tags.length = index.length ∧
      maskSel (maskOf t tags) index = List.range (cntK t tags)
  | [], _, t, ht => absurd ht (List.not_mem_nil t)
  | t0 :: L, h, t, ht => by
    simp only [seqCheck] at h
    cases hbi : boolIndex (maskOf t0 tags) index with
    | error e => simp only [hbi] at h; exact Except.noConfusion h
    | ok sel =>
      simp only [hbi] at h
      obtain ⟨hml, hsel⟩ := boolIndex_ok_inv hbi
      rw [length_maskOf] at hml
      by_cases hchk : sel = List.range (countTrue (maskOf t0 tags))
      · rw [if_pos hchk] at h
        rcases List.mem_cons.mp ht with rfl | htL
        · refine ⟨hml, ?_⟩
          rw [← hsel, hchk, countTrue_maskOf]
        · exact seqCheck_ok_true_inv tags index L h t htL
      · rw [if_neg hchk] at h
        exact absurd (Except.ok.inj h) (by simp)

theorem issequential_pointwise {α : Type u} (u : UnionArray (List α)) (hne : u.tags ≠ [])
    (hs : issequential u = .ok true) :
    uvalid u = .ok () ∧ u.tags.length = u.index.length ∧
    ∀ i : Nat, u.index[i]? = (u.tags[i]?).map (fun t => cntK t (u.tags.take i)) := by
  simp only [issequential] at hs
  cases hv : uvalid u with
  | error e => simp only [hv] at hs; exact Except.noConfusion hs
  | ok v =>
    simp only [hv] at hs
    have hinv := seqCheck_ok_true_inv u.tags u.index (npUnique u.tags) hs
    have hmm : natMax u.tags ∈ npUnique u.tags := mem_npUnique.mpr (natMax_mem hne)
    obtain ⟨hlen, -⟩ := hinv _ hmm
    refine ⟨by cases v; rfl, hlen, ?_⟩
    intro i
    cases hti : u.tags[i]? with
    | none =>
      have : u.tags.length ≤ i := List.getElem?_eq_none_iff.mp hti
      rw [List.getElem?_eq_none (by omega)]
      simp
    | some t =>
      have htm : t ∈ npUnique u.tags := mem_npUnique.mpr (List.getElem?_mem hti)
      obtain ⟨-, hsel⟩ := hinv t htm
      have hmi : (maskOf t u.tags)[i]? = some true := by
        rw [maskOf_get?, hti]; simp
      have hlen2 : (maskOf t u.tags).length = u.index.length := by
        rw [length_maskOf]; exact hlen
      have hrank := maskSel_get_count (maskOf t u.tags) u.index i hlen2 hmi
      have hcnt : countTrue ((maskOf t u.tags).take i) = cntK t (u.tags.take i) := by
        rw [maskOf_take, countTrue_maskOf]
      rw [hcnt, hsel] at hrank
      have hlt : cntK t (u.tags.take i) < cntK t u.tags := cntK_take_lt u.tags i t hti
      rw [List.getElem?_range hlt] at hrank
      rw [← hrank]
      simp

theorem fromtags_ok_inv {α : Type u} {tags : List Nat} {contents : List (List α)}
    {u : UnionArray (List α)} (h : fromtags tags contents = .ok u) :
    tags ≠ [] ∧ natMax tags < contents.length := by
  cases hmx : npMaxNat tags with
  | error e => simp only [fromtags, hmx] at h; exact Except.noConfusion h
  | ok mx =>
    simp only [fromtags, hmx] at h
    obtain ⟨hne, hmxe⟩ := npMaxNat_ok_inv hmx
    subst hmxe
    refine ⟨hne, ?_⟩
    by_cases hguard : contents.length ≤ natMax tags
    · rw [if_pos hguard] at h
      exact Except.noConfusion h
    · omega

theorem fromtagsIndex_length (tags : List Nat) (k : Nat) :
    (fromtagsIndex tags k).length = tags.length := by
  have := foldMaskWrite_length (fun x : Nat => x) (fun _ j => (j : Int)) tags
    (List.range k) (List.replicate tags.length (-1 : Int)) (by simp)
  simpa using this

theorem fromtagsIndex_get?_some (tags : List Nat) (k : Nat)
    (hall : ∀ t ∈ tags, t < k) (i t : Nat) (hti : tags[i]? = some t) :
    (fromtagsIndex tags k)[i]? = some ((cntK t (tags.take i) : Nat) : Int) := by
  have hnd : ((List.range k).map (fun x : Nat => x)).Nodup := by
    simpa [List.map_id] using List.nodup_range k
  have hmem : t ∈ List.range k := List.mem_range.mpr (hall t (List.getElem?_mem hti))
  exact foldMaskWrite_get? (fun x : Nat => x) (fun _ j => (j : Int)) tags
    (List.range k) (List.replicate tags.length (-1 : Int)) i t t (by simp) hnd hmem rfl hti

theorem fromtagsIndex_get?_none (tags : List Nat) (k : Nat) (i : Nat)
    (hti : tags[i]? = none) : (fromtagsIndex tags k)[i]? = none := by
  have huntouched := foldMaskWrite_untouched (fun x : Nat => x) (fun _ j => (j : Int)) tags
    (List.range k) (List.replicate tags.length (-1 : Int)) i (by simp)
    (fun g hg => by rw [hti]; exact fun hc => Option.noConfusion hc)
  refine huntouched.trans (List.getElem?_eq_none ?_)
  simp
  exact List.getElem?_eq_none_iff.mp hti

theorem fromtags_index_char (tags : List Nat) (k : Nat)
    (hall : ∀ t ∈ tags, t < k) (i : Nat) :
    ((fromtagsIndex tags k).map Int.toNat)[i]? =
      (tags[i]?).map (fun t => cntK t (tags.take i)) := by
  rw [List.getElem?_map]
  cases hti : tags[i]? with
  | some t =>
    rw [fromtagsIndex_get?_some tags k hall i t hti]
    simp
  | none =>
    rw [fromtagsIndex_get?_none tags k i hti]
    simp

theorem fromtags_eq {α : Type u} (tags : List Nat) (contents : List (List α))
    (hne : tags ≠ []) (hmax : natMax tags < contents.length) :
    fromtags tags contents =
      .ok ⟨tags, (fromtagsIndex tags contents.length).map Int.toNat, contents⟩ := by
  have hall : ∀ t ∈ tags, t < contents.length :=
    fun t ht => Nat.lt_of_le_of_lt (le_natMax ht) hmax
  have hany : (fromtagsIndex tags contents.length).any (fun x => decide (x < 0)) = false := by
    cases hq : (fromtagsIndex tags contents.length).any (fun x => decide (x < 0)) with
    | false => rfl
    | true =>
      exfalso
      obtain ⟨x, hxF, hxneg⟩ := List.any_eq_true.mp hq
      obtain ⟨i, hi⟩ := List.mem_iff_getElem?.mp hxF
      have hilt : i < (fromtagsIndex tags contents.length).length :=
        (List.getElem?_eq_some_iff.mp hi).1
      rw [fromtagsIndex_length] at hilt
      obtain ⟨t, ht⟩ : ∃ t, tags[i]? = some t := ⟨tags[i], List.getElem?_eq_getElem hilt⟩
      have hchar := fromtagsIndex_get?_some tags contents.length hall i t ht
      rw [hi] at hchar
      have hx : x = ((cntK t (tags.take i) : Nat) : Int) := Option.some.inj hchar
      rw [hx] at hxneg
      simp at hxneg
      omega
  simp only [fromtags, npMaxNat_ok hne]
  rw [if_neg (by omega)]
  simp only [hany, Bool.false_eq_true, if_false]

/-- C2: the sequential-factory round trip.  Any valid union on which the
sequentiality test holds is rebuilt exactly (index included, restricted to
`len(tags)`, which under sequentiality is all of it) by
`fromtags(tags, contents)`, and the persistence encoder emits the compact
form — tags and the ordered contents only, no index — whose replay through
`fromtags` reconstructs the array exactly.  Conversely, any valid array
built by `fromtags` passes the sequentiality test and round-trips through
the compact form. -/
theorem fromtags_compact_roundtrip :
    (∀ {α : Type u} (u : UnionArray (List α)), u.tags ≠ [] → uvalid u = .ok () →
      issequential u = .ok true →
      fromtags u.tags u.contents = .ok u ∧
      persist u = .ok (.compact u.tags u.contents) ∧
      decodePersist (.compact u.tags u.contents) = .ok u) ∧
    (∀ {α : Type u} (tags : List Nat) (cs : List (List α)) (u : UnionArray (List α)),
      fromtags tags cs = .ok u → uvalid u = .ok () →
      issequential u = .ok true ∧ persist u = .ok (.compact tags cs) ∧
      decodePersist (.compact tags cs) = .ok u) := by
  constructor
  · intro α u hne hv hs
    obtain ⟨-, hlen, hpt⟩ := issequential_pointwise u hne hs
    have hvc : validCore List.length u.tags u.index u.contents = .ok () := hv
    have hmax : natMax u.tags < u.contents.length := (validCore_ok_inv hvc).1 hne
    have hall : ∀ t ∈ u.tags, t < u.contents.length :=
      fun t ht => Nat.lt_of_le_of_lt (le_natMax ht) hmax
    have heq := fromtags_eq u.tags u.contents hne hmax
    have hidx : (fromtagsIndex u.tags u.contents.length).map Int.toNat = u.index := by
      apply List.ext_getElem?
      intro i
      rw [fromtags_index_char u.tags u.contents.length hall i]
      exact (hpt i).symm
    have hfe : fromtags u.tags u.contents = .ok u := by
      rw [heq, hidx]
    refine ⟨hfe, ?_, hfe⟩
    simp only [persist, hv, hs]
  · intro α tags cs u hf hv
    obtain ⟨hne, hmax⟩ := fromtags_ok_inv hf
    have heq := fromtags_eq tags cs hne hmax
    have hu : UnionArray.mk tags ((fromtagsIndex tags cs.length).map Int.toNat) cs = u :=
      Except.ok.inj (heq.symm.trans hf)
    subst hu
    have hall : ∀ t ∈ tags, t < cs.length :=
      fun t ht => Nat.lt_of_le_of_lt (le_natMax ht) hmax
    have hlen : tags.length = ((fromtagsIndex tags cs.length).map Int.toNat).length := by
      simp [fromtagsIndex_length]
    have hpt := fromtags_index_char tags cs.length hall
    have hseq : issequential
        (UnionArray.mk tags ((fromtagsIndex tags cs.length).map Int.toNat) cs) = .ok true := by
      simp only [issequential, hv]
      exact seqCheck_ok_of tags _ hlen hpt (npUnique tags)
    refine ⟨hseq, ?_, hf⟩
    simp only [persist, hv, hseq]

/-- Witness for the round-trip theorem on a small sequential union. -/
theorem fromtags_compact_roundtrip_witness :
    fromtags exSeq.tags exSeq.contents = .ok exSeq ∧
    persist exSeq = .ok (.compact exSeq.tags exSeq.contents) ∧
    decodePersist (.compact exSeq.tags exSeq.contents) = .ok exSeq :=
  fromtags_compact_roundtrip.1 exSeq (by decide) rfl rfl

/-! ### The dispatch engine -/

